import Mathlib

/-!
Verification of the quantum repetition-code pipeline
(`src/decoder.py`, `src/repetition_code.py`).

Measurement outcomes are bits stored as natural numbers (stim samples are
0/1 matrices).  Probabilities are modelled as rationals: the Python code
only compares them (`> 0`) and stores them in instructions, so no
floating-point behaviour is relevant.
-/

namespace QEC

/-! ### Decoder (`src/decoder.py`) -/

/-- `MajorityVoteDecoder.decode` (decoder.py lines 30-46):
`ones_count = np.sum(data_measurements)`,
`zeros_count = len(data_measurements) - ones_count`,
`return 1 if ones_count > zeros_count else 0`.

For lists of naturals, Nat truncated subtraction agrees with Python's
integer subtraction on the comparison's outcome: if `ones_count` exceeds
the length, the Python `zeros_count` is negative and the comparison holds
iff `ones_count > 0`, which matches `0 < ones_count` after truncation. -/
def decode (syndrome data_measurements : List Nat) : Nat :=
  let ones_count := data_measurements.sum
  let zeros_count := data_measurements.length - ones_count
  if zeros_count < ones_count then 1 else 0

/-- `MajorityVoteDecoder.decode_with_syndrome` (decoder.py lines 48-72):
copies the data (`corrected_data = data_measurements.copy()`, unused) and
then `return self.decode(syndrome, data_measurements)`. -/
def decode_with_syndrome (syndrome data_measurements : List Nat) : Nat :=
  let corrected_data := data_measurements
  decode syndrome data_measurements

/-- `decode_samples` (decoder.py lines 88-110): split each sample row at
`num_syndrome = code_distance - 1` and decode. -/
def decode_samples (samples : List (List Nat)) (code_distance : Nat) : List Nat :=
  let num_syndrome := code_distance - 1
  samples.map (fun sample => decode (sample.take num_syndrome) (sample.drop num_syndrome))

/-- `calculate_logical_error_rate` (decoder.py lines 113-127):
`errors / len(decoded_values)` under numpy true division.  When
`len(decoded_values) = 0` numpy evaluates `0 / 0` to NaN (with only a
RuntimeWarning, no exception); the NaN result is modelled as `none`. -/
def calculate_logical_error_rate (samples : List (List Nat)) (code_distance : Nat)
    (expected_value : Nat) : Option ℚ :=
  let decoded_values := decode_samples samples code_distance
  let errors := (decoded_values.filter (fun v => v ≠ expected_value)).length
  if decoded_values.length = 0 then none
  else some ((errors : ℚ) / (decoded_values.length : ℚ))

/-! ### Repetition code and circuit builder (`src/repetition_code.py`) -/

/-- The two basis tags accepted by `RepetitionCode.__init__`. -/
inductive Basis
  | z
  | x
deriving DecidableEq, Repr

/-- A stim circuit instruction, as appended by `repetition_code.py`:
`CNOT`, `H`, `X_ERROR p`, `Z_ERROR p`, `R` (reset), `M` (measure). -/
inductive Instr
  | cnot (control target : Nat)
  | h (q : Nat)
  | xError (q : Nat) (p : ℚ)
  | zError (q : Nat) (p : ℚ)
  | reset (q : Nat)
  | measure (q : Nat)
deriving DecidableEq, Repr

/-- A validated repetition code: `code_distance` physical qubits and the
protected basis.  `num_qubits = code_distance`,
`num_ancillas = code_distance - 1` are derived. -/
structure RepetitionCode where
  code_distance : Nat
  basis : Basis
deriving DecidableEq, Repr

/-- `RepetitionCode.__init__` (repetition_code.py lines 22-39): raises
`ValueError` when `code_distance < 3 or code_distance % 2 == 0`, or when
`basis not in ['z', 'x']`.  The distance argument is a Python integer,
modelled as `Int` (Python `%` and Lean `Int.emod` agree for modulus 2). -/
def mkRepetitionCode (code_distance : Int) (basis : String) : Except String RepetitionCode :=
  if code_distance < 3 ∨ code_distance % 2 = 0 then
    Except.error "Code distance must be odd and >= 3"
  else if ¬(basis = "z" ∨ basis = "x") then
    Except.error "Basis must be z or x"
  else
    Except.ok ⟨code_distance.toNat, if basis = "z" then Basis.z else Basis.x⟩

/-- The noise channel matched to the protected basis
(`noise_op = "X_ERROR" if self.basis == 'z' else "Z_ERROR"`). -/
def noise_op (b : Basis) (q : Nat) (p : ℚ) : Instr :=
  match b with
  | Basis.z => Instr.xError q p
  | Basis.x => Instr.zError q p

/-- One iteration of the syndrome-measurement loop (repetition_code.py
lines 109-122), for ancilla `i` at qubit index `d + i`: reset, the two
parity CNOTs from qubits `i` and `i+1`, the optional readout-error
channel (emitted only when `measurement_noise > 0`), then the ancilla
measurement. -/
def ancilla_block (d : Nat) (measurement_noise : ℚ) (i : Nat) : List Instr :=
  [Instr.reset (d + i), Instr.cnot i (d + i), Instr.cnot (i + 1) (d + i)]
    ++ (if 0 < measurement_noise then [Instr.xError (d + i) measurement_noise] else [])
    ++ [Instr.measure (d + i)]

/-- The instruction sequence appended by
`RepetitionCode.create_syndrome_measurement_circuit` (repetition_code.py
lines 80-157) for distance `d` and basis `b`: encoding CNOTs
(`for i in range(1, num_qubits): CNOT [0, i]`), the H layer for the
x-basis code, the noise layer (only when `noise_prob > 0`, one channel
instruction per physical qubit), the second H layer for the x-basis code,
the `num_ancillas = d - 1` syndrome blocks, and the final measurement of
every data qubit. -/
def circuit_instrs (d : Nat) (b : Basis) (noise_prob measurement_noise : ℚ) : List Instr :=
  ((List.range (d - 1)).map (fun i => Instr.cnot 0 (i + 1)))
    ++ (if b = Basis.x then (List.range d).map Instr.h else [])
    ++ (if 0 < noise_prob then (List.range d).map (fun i => noise_op b i noise_prob) else [])
    ++ (if b = Basis.x then (List.range d).map Instr.h else [])
    ++ (List.range (d - 1)).flatMap (ancilla_block d measurement_noise)
    ++ (List.range d).map Instr.measure

/-- `create_syndrome_measurement_circuit` as called on a validated code
(`d ≥ 3`).  The method itself performs no validation of the probability
arguments; the two error branches model the probability-argument check
performed by the external stim library inside `circuit.append`
(`X_ERROR`/`Z_ERROR` with an argument above 1 raises `ValueError`; such
an instruction is appended exactly when the probability is positive, so
for `d ≥ 3` the build fails iff `noise_prob > 1` or
`measurement_noise > 1`, and a non-positive probability silently skips
the emission). -/
def create_syndrome_measurement_circuit (d : Nat) (b : Basis)
    (noise_prob measurement_noise : ℚ) : Except String (List Instr) :=
  if 1 < noise_prob then Except.error "probability argument out of range"
  else if 1 < measurement_noise then Except.error "probability argument out of range"
  else Except.ok (circuit_instrs d b noise_prob measurement_noise)

/-- The ordered list of qubit indices read out by the circuit's `M`
instructions (one outcome slot per `M`, in emission order). -/
def measured_qubits (c : List Instr) : List Nat :=
  c.filterMap (fun ins =>
    match ins with
    | Instr.measure q => some q
    | _ => none)

/-- The probabilistic-error instructions of a circuit, in emission order. -/
def error_instrs (c : List Instr) : List Instr :=
  c.filter (fun ins =>
    match ins with
    | Instr.xError _ _ => true
    | Instr.zError _ _ => true
    | _ => false)

/-! ### Syndrome-pattern statistics (`analyze_syndrome_patterns`) -/

/-- One step of `syndrome_counts[syndrome] = syndrome_counts.get(syndrome, 0) + 1`
on a Python dict: an existing key keeps its position and its value is
incremented; a new key is appended at the end with value 1 (Python dicts
preserve insertion order). -/
def dict_incr (counts : List (List Nat × Nat)) (k : List Nat) : List (List Nat × Nat) :=
  match counts with
  | [] => [(k, 1)]
  | (k', c) :: rest => if k' = k then (k', c + 1) :: rest else (k', c) :: dict_incr rest k

/-- `syndrome_counts.get(k, 0)`: the stored count of a key, 0 if absent. -/
def dict_get (counts : List (List Nat × Nat)) (k : List Nat) : Nat :=
  ((counts.find? (fun e => decide (e.1 = k))).map Prod.snd).getD 0

/-- The counting loop of `analyze_syndrome_patterns` (decoder.py lines
142-146): fold the rows, keying each row by its length-`num_syndrome`
prefix `tuple(sample[:num_syndrome])`. -/
def syndrome_counts_of (samples : List (List Nat)) (num_syndrome : Nat) :
    List (List Nat × Nat) :=
  samples.foldl (fun acc sample => dict_incr acc (sample.take num_syndrome)) []

/-- Python's `max(items, key=lambda x: x[1])` scan: the running best is
replaced only by a strictly greater count, so the first maximal element
in iteration order wins. -/
def pick_max (best : List Nat × Nat) : List (List Nat × Nat) → List Nat × Nat
  | [] => best
  | y :: ys => pick_max (if best.2 < y.2 then y else best) ys

/-- `max(syndrome_counts.items(), key=lambda x: x[1])`; `max()` on an
empty dict raises `ValueError`, modelled as `none`. -/
def most_common_of (counts : List (List Nat × Nat)) : Option (List Nat × Nat) :=
  match counts with
  | [] => none
  | x :: xs => some (pick_max x xs)

/-- The `syndrome_stats` dictionary built by `analyze_syndrome_patterns`
(decoder.py lines 148-155). -/
structure SyndromeStats where
  patterns : List (List Nat × Nat)
  num_unique_patterns : Nat
  most_common : Option (List Nat × Nat)
  total_samples : Nat
deriving DecidableEq, Repr

/-- `analyze_syndrome_patterns` (decoder.py lines 130-157). -/
def analyze_syndrome_patterns (samples : List (List Nat)) (code_distance : Nat) :
    SyndromeStats :=
  let num_syndrome := code_distance - 1
  let syndrome_counts := syndrome_counts_of samples num_syndrome
  { patterns := syndrome_counts
    num_unique_patterns := syndrome_counts.length
    most_common := most_common_of syndrome_counts
    total_samples := samples.length }

/-- The position of the first occurrence of `a` in a list of bit
vectors (list length when absent): used to state the first-encountered
tie-break policy. -/
def first_index (a : List Nat) : List (List Nat) → Nat
  | [] => 0
  | x :: t => if x = a then 0 else first_index a t + 1

/-- The specification of `analyze_syndrome_patterns` for a non-empty
outcome matrix: exact per-pattern occurrence counts of the
length-`numAncillas` prefixes grouped by equality, a duplicate-free
pattern table covering exactly the occurring prefixes, the unique-pattern
count, the shot total, and a most-frequent pattern of maximal count
whose first occurrence (in row order) is no later than that of any other
pattern achieving the maximal count. -/
def SyndromeStatsCorrect (samples : List (List Nat)) (code_distance : Nat) : Prop :=
  (∀ p, dict_get (analyze_syndrome_patterns samples code_distance).patterns p =
      samples.countP (fun r => decide (r.take (code_distance - 1) = p))) ∧
  ((analyze_syndrome_patterns samples code_distance).patterns.map Prod.fst).Nodup ∧
  (∀ p, p ∈ (analyze_syndrome_patterns samples code_distance).patterns.map Prod.fst ↔
      ∃ r ∈ samples, r.take (code_distance - 1) = p) ∧
  (analyze_syndrome_patterns samples code_distance).num_unique_patterns =
    (analyze_syndrome_patterns samples code_distance).patterns.length ∧
  (analyze_syndrome_patterns samples code_distance).total_samples = samples.length ∧
  ∃ p₀ c₀, (analyze_syndrome_patterns samples code_distance).most_common = some (p₀, c₀) ∧
    c₀ = samples.countP (fun r => decide (r.take (code_distance - 1) = p₀)) ∧
    (∃ r ∈ samples, r.take (code_distance - 1) = p₀) ∧
    (∀ r ∈ samples,
      samples.countP (fun q => decide (q.take (code_distance - 1) = r.take (code_distance - 1)))
        ≤ c₀) ∧
    (∀ r ∈ samples,
      samples.countP (fun q => decide (q.take (code_distance - 1) = r.take (code_distance - 1)))
          = c₀ →
        first_index p₀ (samples.map (fun q => q.take (code_distance - 1))) ≤
          first_index (r.take (code_distance - 1))
            (samples.map (fun q => q.take (code_distance - 1))))

/-- Loop invariant of the counting fold in `analyze_syndrome_patterns`,
after the rows `pre` have been processed into the dict `counts`: keys
are duplicate-free, each key's stored count is the number of processed
rows with that prefix, the keys are exactly the prefixes seen so far,
and the keys are ordered by first occurrence. -/
def CountsInv (n : Nat) (pre : List (List Nat)) (counts : List (List Nat × Nat)) : Prop :=
  (counts.map Prod.fst).Nodup ∧
  (∀ p, dict_get counts p = pre.countP (fun x => decide (x.take n = p))) ∧
  (∀ p, p ∈ counts.map Prod.fst ↔ p ∈ pre.map (fun x => x.take n)) ∧
  (counts.map Prod.fst).Pairwise (fun p q =>
    first_index p (pre.map (fun x => x.take n)) < first_index q (pre.map (fun x => x.take n)))

/-! ### Claim theorems about the decoder -/

lemma bits_sum_eq_count_one (db : List Nat) (hbits : ∀ b ∈ db, b = 0 ∨ b = 1) :
    db.sum = db.count 1 := by
  induction db with
  | nil => simp
  | cons a l ih =>
    have ha := hbits a (by simp)
    have hl : ∀ b ∈ l, b = 0 ∨ b = 1 := fun b hb => hbits b (by simp [hb])
    have h2 := ih hl
    rcases ha with rfl | rfl <;> simp [List.count_cons] <;> omega

lemma bits_length_eq_counts (db : List Nat) (hbits : ∀ b ∈ db, b = 0 ∨ b = 1) :
    db.length = db.count 0 + db.count 1 := by
  induction db with
  | nil => simp
  | cons a l ih =>
    have ha := hbits a (by simp)
    have hl : ∀ b ∈ l, b = 0 ∨ b = 1 := fun b hb => hbits b (by simp [hb])
    have h2 := ih hl
    rcases ha with rfl | rfl <;> simp [List.count_cons] <;> omega

lemma decode_eq_count (db : List Nat) (hbits : ∀ b ∈ db, b = 0 ∨ b = 1) (s : List Nat) :
    decode s db = if db.count 0 < db.count 1 then 1 else 0 := by
  have hsum : db.sum = db.count 1 := bits_sum_eq_count_one db hbits
  have hlen : db.length = db.count 0 + db.count 1 := bits_length_eq_counts db hbits
  unfold decode
  simp only [hsum, hlen]
  have : db.count 0 + db.count 1 - db.count 1 = db.count 0 := by omega
  rw [this]

/-- C1: for every non-empty bit vector `dataBits` and every syndrome,
`decode` returns 1 iff the ones strictly outnumber the zeros among the
data bits, else 0; in particular for distance 5, `[1,1,0,0,0]` decodes
to 0 and `[1,1,1,0,0]` decodes to 1 (for any syndrome). -/
theorem decode_majority_vote (db s : List Nat) (hne : db ≠ [])
    (hbits : ∀ b ∈ db, b = 0 ∨ b = 1) :
    decode s db = (if db.count 0 < db.count 1 then 1 else 0) ∧
    decode s [1, 1, 0, 0, 0] = 0 ∧ decode s [1, 1, 1, 0, 0] = 1 := by
  refine ⟨decode_eq_count db hbits s, ?_, ?_⟩ <;> rfl

/-- Witness for C1 at `dataBits = [1,1,0,0,0]`, empty syndrome. -/
theorem decode_majority_vote_witness :
    ([1, 1, 0, 0, 0] : List Nat) ≠ [] ∧
    (decode [] [1, 1, 0, 0, 0] =
        (if ([1, 1, 0, 0, 0] : List Nat).count 0 < ([1, 1, 0, 0, 0] : List Nat).count 1
         then 1 else 0) ∧
      decode [] [1, 1, 0, 0, 0] = 0 ∧ decode [] [1, 1, 1, 0, 0] = 1) :=
  ⟨by decide, decode_majority_vote [1, 1, 0, 0, 0] [] (by decide) (by decide)⟩

/-- C5: `decode` is a pure function whose value never depends on the
syndrome argument, and its result is always 0 or 1. -/
theorem decode_syndrome_independent (s1 s2 db : List Nat) :
    decode s1 db = decode s2 db ∧ (decode s1 db = 0 ∨ decode s1 db = 1) := by
  refine ⟨rfl, ?_⟩
  simp only [decode]
  split
  · right; rfl
  · left; rfl

/-- C9: `decode_with_syndrome` is extensionally equal to plain majority
vote `decode` on every input. -/
theorem decode_with_syndrome_eq_decode (s db : List Nat) :
    decode_with_syndrome s db = decode s db := rfl

/-- C10: `decode` is total on the empty data vector: it returns 0
(zero ones do not strictly outnumber zero zeros) without failing. -/
theorem decode_empty (s : List Nat) : decode s [] = 0 := rfl

/-! ### Circuit-structure helper lemmas -/

lemma measured_qubits_append (l1 l2 : List Instr) :
    measured_qubits (l1 ++ l2) = measured_qubits l1 ++ measured_qubits l2 :=
  List.filterMap_append l1 l2 _

lemma error_instrs_append (l1 l2 : List Instr) :
    error_instrs (l1 ++ l2) = error_instrs l1 ++ error_instrs l2 :=
  List.filter_append l1 l2

lemma measured_qubits_flatMap (l : List Nat) (f : Nat → List Instr) :
    measured_qubits (l.flatMap f) = l.flatMap (fun a => measured_qubits (f a)) := by
  induction l with
  | nil => rfl
  | cons a t ih => simp [List.flatMap_cons, measured_qubits_append, ih]

lemma error_instrs_flatMap (l : List Nat) (f : Nat → List Instr) :
    error_instrs (l.flatMap f) = l.flatMap (fun a => error_instrs (f a)) := by
  induction l with
  | nil => rfl
  | cons a t ih => simp [List.flatMap_cons, error_instrs_append, ih]

lemma flatMap_singleton_eq_map {α β : Type} (l : List α) (f : α → β) :
    (l.flatMap fun a => [f a]) = l.map f := by
  induction l with
  | nil => rfl
  | cons a t ih => simp [List.flatMap_cons, ih]

lemma flatMap_const_nil {α β : Type} (l : List α) :
    (l.flatMap fun _ => ([] : List β)) = [] := by
  induction l with
  | nil => rfl
  | cons a t ih => simp [List.flatMap_cons, ih]

lemma measured_qubits_map_h (l : List Nat) : measured_qubits (l.map Instr.h) = [] := by
  induction l with
  | nil => rfl
  | cons a t ih => simpa [measured_qubits] using ih

lemma measured_qubits_map_cnot (l : List Nat) (f g : Nat → Nat) :
    measured_qubits (l.map fun i => Instr.cnot (f i) (g i)) = [] := by
  induction l with
  | nil => rfl
  | cons a t ih => simpa [measured_qubits] using ih

lemma measured_qubits_map_noise (l : List Nat) (b : Basis) (p : ℚ) :
    measured_qubits (l.map fun i => noise_op b i p) = [] := by
  induction l with
  | nil => rfl
  | cons a t ih => cases b <;> simpa [measured_qubits, noise_op] using ih

lemma measured_qubits_map_measure (l : List Nat) :
    measured_qubits (l.map Instr.measure) = l := by
  induction l with
  | nil => rfl
  | cons a t ih => simpa [measured_qubits] using ih

lemma measured_qubits_ancilla_block (d : Nat) (mn : ℚ) (i : Nat) :
    measured_qubits (ancilla_block d mn i) = [d + i] := by
  unfold ancilla_block
  split <;> rfl

lemma measured_qubits_circuit (d : Nat) (b : Basis) (p mn : ℚ) :
    measured_qubits (circuit_instrs d b p mn) =
      (List.range (d - 1)).map (fun j => d + j) ++ List.range d := by
  unfold circuit_instrs
  rw [measured_qubits_append, measured_qubits_append, measured_qubits_append,
    measured_qubits_append, measured_qubits_append]
  rw [measured_qubits_flatMap]
  simp only [measured_qubits_ancilla_block]
  rw [flatMap_singleton_eq_map, measured_qubits_map_cnot, measured_qubits_map_measure]
  have h1 : measured_qubits (if b = Basis.x then (List.range d).map Instr.h else []) = [] := by
    split
    · exact measured_qubits_map_h _
    · rfl
  have h2 : measured_qubits
      (if 0 < p then (List.range d).map (fun i => noise_op b i p) else []) = [] := by
    split
    · exact measured_qubits_map_noise _ b p
    · rfl
  rw [h1, h2]
  simp

lemma error_instrs_map_cnot (l : List Nat) (f g : Nat → Nat) :
    error_instrs (l.map fun i => Instr.cnot (f i) (g i)) = [] := by
  induction l with
  | nil => rfl
  | cons a t ih => simpa [error_instrs] using ih

lemma error_instrs_map_h (l : List Nat) : error_instrs (l.map Instr.h) = [] := by
  induction l with
  | nil => rfl
  | cons a t ih => simpa [error_instrs] using ih

lemma error_instrs_map_measure (l : List Nat) :
    error_instrs (l.map Instr.measure) = [] := by
  induction l with
  | nil => rfl
  | cons a t ih => simpa [error_instrs] using ih

lemma error_instrs_map_noise (l : List Nat) (b : Basis) (p : ℚ) :
    error_instrs (l.map fun i => noise_op b i p) = l.map fun i => noise_op b i p := by
  induction l with
  | nil => rfl
  | cons a t ih => cases b <;> simpa [error_instrs, noise_op] using ih

lemma error_instrs_ancilla_block (d : Nat) (mn : ℚ) (i : Nat) :
    error_instrs (ancilla_block d mn i) =
      if 0 < mn then [Instr.xError (d + i) mn] else [] := by
  unfold ancilla_block
  split <;> rfl

lemma error_instrs_circuit (d : Nat) (b : Basis) (p mn : ℚ) :
    error_instrs (circuit_instrs d b p mn) =
      (if 0 < p then (List.range d).map (fun j => noise_op b j p) else [])
        ++ (if 0 < mn then (List.range (d - 1)).map (fun j => Instr.xError (d + j) mn)
            else []) := by
  unfold circuit_instrs
  rw [error_instrs_append, error_instrs_append, error_instrs_append, error_instrs_append,
    error_instrs_append, error_instrs_flatMap]
  simp only [error_instrs_ancilla_block]
  rw [error_instrs_map_cnot, error_instrs_map_measure]
  have h1 : error_instrs (if b = Basis.x then (List.range d).map Instr.h else []) = [] := by
    split
    · exact error_instrs_map_h _
    · rfl
  have h2 : error_instrs
        (if 0 < p then (List.range d).map (fun i => noise_op b i p) else [])
      = if 0 < p then (List.range d).map (fun i => noise_op b i p) else [] := by
    split
    · exact error_instrs_map_noise _ b p
    · rfl
  have h3 : ((List.range (d - 1)).flatMap fun a =>
        if 0 < mn then [Instr.xError (d + a) mn] else [])
      = if 0 < mn then (List.range (d - 1)).map (fun j => Instr.xError (d + j) mn)
        else [] := by
    by_cases hmn : 0 < mn
    · simp only [if_pos hmn]
      exact flatMap_singleton_eq_map _ _
    · simp only [if_neg hmn]
      exact flatMap_const_nil _
  rw [h1, h2, h3]
  simp

lemma infix_flatMap_of_mem {α : Type} (a : α) (l : List α) (f : α → List Instr)
    (h : a ∈ l) : f a <:+: l.flatMap f := by
  obtain ⟨s, t, rfl⟩ := List.append_of_mem h
  refine ⟨s.flatMap f, t.flatMap f, ?_⟩
  simp [List.flatMap_append, List.flatMap_cons]

lemma ancilla_block_infix_circuit (d : Nat) (b : Basis) (p mn : ℚ) (i : Nat)
    (hi : i < d - 1) : ancilla_block d mn i <:+: circuit_instrs d b p mn := by
  have h1 : ancilla_block d mn i <:+: (List.range (d - 1)).flatMap (ancilla_block d mn) :=
    infix_flatMap_of_mem i _ _ (List.mem_range.mpr hi)
  have h2 : (List.range (d - 1)).flatMap (ancilla_block d mn) <:+:
      circuit_instrs d b p mn := by
    refine ⟨((List.range (d - 1)).map (fun j => Instr.cnot 0 (j + 1)))
        ++ ((if b = Basis.x then (List.range d).map Instr.h else [])
        ++ ((if 0 < p then (List.range d).map (fun j => noise_op b j p) else [])
        ++ (if b = Basis.x then (List.range d).map Instr.h else []))),
      (List.range d).map Instr.measure, ?_⟩
    unfold circuit_instrs
    simp [List.append_assoc]
  exact h1.trans h2

/-! ### Claim theorems about the circuit builder -/

/-- C2: in every built circuit the measurement slots are exactly
[ancilla 0 .. ancilla numAncillas-1, qubit 0 .. qubit distance-1]: the
ancillas (qubit indices `d + j`) in index order followed by the data
qubits `0 .. d-1` in index order; and each ancilla's complete syndrome
block — reset, the two parity CNOTs, (optional readout error), then its
measurement — occurs contiguously in the circuit. -/
theorem circuit_measurement_order (d : Nat) (b : Basis) (p mn : ℚ) (i : Nat)
    (hi : i < d - 1) :
    measured_qubits (circuit_instrs d b p mn) =
      (List.range (d - 1)).map (fun j => d + j) ++ List.range d ∧
    ancilla_block d mn i <:+: circuit_instrs d b p mn :=
  ⟨measured_qubits_circuit d b p mn, ancilla_block_infix_circuit d b p mn i hi⟩

/-- Witness for C2 at distance 3, z basis, both probabilities 0, ancilla 0. -/
theorem circuit_measurement_order_witness :
    0 < 3 - 1 ∧
    (measured_qubits (circuit_instrs 3 Basis.z 0 0) =
        (List.range (3 - 1)).map (fun j => 3 + j) ++ List.range 3 ∧
      ancilla_block 3 0 0 <:+: circuit_instrs 3 Basis.z 0 0) :=
  ⟨by decide, circuit_measurement_order 3 Basis.z 0 0 0 (by decide)⟩

/-- C7: the probabilistic-error instructions of every built circuit are,
in order: when `noise_prob > 0`, exactly one channel instruction per
physical qubit using the channel matched to the protected basis
(`X_ERROR` for z, `Z_ERROR` for x) and none at all when
`noise_prob ≤ 0`; then, when `measurement_noise > 0`, exactly one
`X_ERROR` readout-error instruction per ancilla, and none when
`measurement_noise ≤ 0`.  Moreover when `measurement_noise > 0` each
ancilla's readout error sits directly before that ancilla's
measurement. -/
theorem circuit_noise_emission (d : Nat) (b : Basis) (p mn q r : ℚ) (i : Nat)
    (hi : i < d - 1) (hmn : 0 < mn) :
    error_instrs (circuit_instrs d b q r) =
      (if 0 < q then (List.range d).map (fun j => noise_op b j q) else [])
        ++ (if 0 < r then (List.range (d - 1)).map (fun j => Instr.xError (d + j) r)
            else []) ∧
    [Instr.xError (d + i) mn, Instr.measure (d + i)] <:+: circuit_instrs d b p mn := by
  refine ⟨error_instrs_circuit d b q r, ?_⟩
  have hblk : [Instr.xError (d + i) mn, Instr.measure (d + i)] <:+: ancilla_block d mn i := by
    refine ⟨[Instr.reset (d + i), Instr.cnot i (d + i), Instr.cnot (i + 1) (d + i)], [], ?_⟩
    simp [ancilla_block, if_pos hmn]
  exact hblk.trans (ancilla_block_infix_circuit d b p mn i hi)

/-- Witness for C7 at distance 3, z basis, `noise_prob = 0`,
`measurement_noise = 1/2`, ancilla 0. -/
theorem circuit_noise_emission_witness :
    0 < 3 - 1 ∧ (0 : ℚ) < 1 / 2 ∧
    (error_instrs (circuit_instrs 3 Basis.z 0 (1 / 2)) =
        (if (0 : ℚ) < 0 then (List.range 3).map (fun j => noise_op Basis.z j 0) else [])
          ++ (if (0 : ℚ) < 1 / 2 then
                (List.range (3 - 1)).map (fun j => Instr.xError (3 + j) (1 / 2))
              else []) ∧
      [Instr.xError (3 + 0) (1 / 2), Instr.measure (3 + 0)] <:+:
        circuit_instrs 3 Basis.z (1 / 2) (1 / 2)) :=
  ⟨by decide, by norm_num,
    circuit_noise_emission 3 Basis.z (1 / 2) (1 / 2) 0 (1 / 2) 0 (by decide) (by norm_num)⟩

/-- C4 counterexample: `create_syndrome_measurement_circuit` called with
`noise_prob = -1/2` (outside `[0,1]`) does not fail: it succeeds and
returns a circuit, contradicting the claim that any out-of-range
probability fails immediately with an input error. -/
theorem create_circuit_negative_noise_ok :
    (create_syndrome_measurement_circuit 3 Basis.z (-(1 / 2)) 0).isOk = true := by
  unfold create_syndrome_measurement_circuit
  rw [if_neg (by norm_num), if_neg (by norm_num)]
  rfl

/-- C4 (amended): the builder performs no probability validation of its
own.  A negative `noise_prob` (with non-positive `measurement_noise`)
silently succeeds and builds a circuit containing no probabilistic-error
instruction at all, while a probability above 1 makes the call fail
(raised by the circuit backend when the corresponding channel
instruction is appended). -/
theorem create_circuit_range_behavior (d : Nat) (b : Basis) (p mn q r : ℚ)
    (hp : p < 0) (hmn : mn ≤ 0) (hqr : 1 < q ∨ 1 < r) :
    create_syndrome_measurement_circuit d b p mn = Except.ok (circuit_instrs d b p mn) ∧
    error_instrs (circuit_instrs d b p mn) = [] ∧
    (create_syndrome_measurement_circuit d b q r).isOk = false := by
  refine ⟨?_, ?_, ?_⟩
  · unfold create_syndrome_measurement_circuit
    rw [if_neg (by linarith), if_neg (by linarith)]
  · rw [error_instrs_circuit, if_neg (by linarith), if_neg (by linarith)]
    rfl
  · unfold create_syndrome_measurement_circuit
    rcases hqr with hq | hr
    · rw [if_pos hq]
      rfl
    · by_cases hq : 1 < q
      · rw [if_pos hq]
        rfl
      · rw [if_neg hq, if_pos hr]
        rfl

/-- Witness for C4 (amended) at distance 3, z basis, `p = mn = -1/2`,
`q = 2`, `r = 0`. -/
theorem create_circuit_range_behavior_witness :
    (-(1 / 2) : ℚ) < 0 ∧ (-(1 / 2) : ℚ) ≤ 0 ∧ ((1 : ℚ) < 2 ∨ (1 : ℚ) < 0) ∧
    (create_syndrome_measurement_circuit 3 Basis.z (-(1 / 2)) (-(1 / 2)) =
        Except.ok (circuit_instrs 3 Basis.z (-(1 / 2)) (-(1 / 2))) ∧
      error_instrs (circuit_instrs 3 Basis.z (-(1 / 2)) (-(1 / 2))) = [] ∧
      (create_syndrome_measurement_circuit 3 Basis.z 2 0).isOk = false) :=
  ⟨by norm_num, by norm_num, Or.inl (by norm_num),
    create_circuit_range_behavior 3 Basis.z (-(1 / 2)) (-(1 / 2)) 2 0
      (by norm_num) (by norm_num) (Or.inl (by norm_num))⟩

/-- C6: `RepetitionCode` construction succeeds exactly for an odd
distance ≥ 3 together with basis tag `"z"` or `"x"`, and fails with a
configuration error otherwise (before any circuit is built); in
particular distance 4 (even), distance 2 (below minimum) and basis
`"y"` are rejected. -/
theorem repetition_code_validation (d : Int) (basis : String) :
    ((mkRepetitionCode d basis).isOk = true ↔
      (3 ≤ d ∧ d % 2 = 1 ∧ (basis = "z" ∨ basis = "x"))) ∧
    (mkRepetitionCode 4 "z").isOk = false ∧
    (mkRepetitionCode 2 "z").isOk = false ∧
    (mkRepetitionCode 5 "y").isOk = false := by
  refine ⟨⟨?_, ?_⟩, by decide, by decide, by decide⟩
  · intro h
    unfold mkRepetitionCode at h
    by_cases h1 : d < 3 ∨ d % 2 = 0
    · rw [if_pos h1] at h
      exact absurd h (by simp [Except.isOk, Except.toBool])
    · by_cases h2 : basis = "z" ∨ basis = "x"
      · push_neg at h1
        exact ⟨by omega, by omega, h2⟩
      · rw [if_neg h1, if_pos h2] at h
        exact absurd h (by simp [Except.isOk, Except.toBool])
  · rintro ⟨h3, hodd, hb⟩
    unfold mkRepetitionCode
    rw [if_neg (by omega), if_neg (by tauto)]
    rfl

/-- C3: `calculate_logical_error_rate` on an empty outcome matrix.  The
Python code reaches `errors / len(decoded_values)` with a zero
denominator; `errors` is a numpy integer scalar, so `0 / 0` evaluates
under numpy true division to NaN (emitting only a RuntimeWarning — the
repository never calls `np.seterr`), and NaN is returned instead of a
surfaced failure.  `none` is this embedding's marker for that NaN
result: the call neither raises nor returns a number. -/
theorem logical_error_rate_zero_shots :
    calculate_logical_error_rate [] 3 0 = none ∧ decode_samples [] 3 = [] :=
  ⟨rfl, rfl⟩

/-! ### Dictionary lemmas for the syndrome statistics -/

lemma dict_get_cons (k' : List Nat) (c : Nat) (rest : List (List Nat × Nat)) (k : List Nat) :
    dict_get ((k', c) :: rest) k = if k' = k then c else dict_get rest k := by
  by_cases h : k' = k
  · rw [if_pos h]
    unfold dict_get
    rw [List.find?_cons_of_pos _ (by simp [h])]
    rfl
  · rw [if_neg h]
    unfold dict_get
    rw [List.find?_cons_of_neg _ (by simp [h])]

lemma dict_incr_keys (counts : List (List Nat × Nat)) (k : List Nat) :
    (dict_incr counts k).map Prod.fst =
      if k ∈ counts.map Prod.fst then counts.map Prod.fst
      else counts.map Prod.fst ++ [k] := by
  induction counts with
  | nil => simp [dict_incr]
  | cons e rest ih =>
    obtain ⟨k', c⟩ := e
    by_cases h : k' = k
    · simp [dict_incr, h]
    · simp only [dict_incr, if_neg h, List.map_cons]
      rw [ih]
      by_cases hm : k ∈ rest.map Prod.fst
      · rw [if_pos hm, if_pos (by simp [hm])]
      · rw [if_neg hm, if_neg (by simp [hm, Ne.symm h])]
        rfl

lemma dict_incr_get (counts : List (List Nat × Nat)) (k p : List Nat) :
    dict_get (dict_incr counts k) p =
      if p = k then dict_get counts p + 1 else dict_get counts p := by
  induction counts with
  | nil =>
    show dict_get [(k, 1)] p = _
    rw [dict_get_cons]
    by_cases h : p = k
    · rw [if_pos (h.symm), if_pos h]
      rfl
    · rw [if_neg (fun e => h e.symm), if_neg h]
  | cons e rest ih =>
    obtain ⟨k', c⟩ := e
    by_cases h : k' = k
    · simp only [dict_incr, if_pos h]
      rw [dict_get_cons, dict_get_cons]
      by_cases h2 : k' = p
      · rw [if_pos h2, if_pos h2, if_pos (by rw [← h2, h])]
      · rw [if_neg h2, if_neg h2]
        have : p ≠ k := fun e => h2 (by rw [h, e])
        rw [if_neg this]
    · simp only [dict_incr, if_neg h]
      rw [dict_get_cons, dict_get_cons]
      by_cases h2 : k' = p
      · have : p ≠ k := fun e => h (by rw [h2, e])
        rw [if_pos h2, if_pos h2, if_neg this]
      · rw [if_neg h2, if_neg h2, ih]

lemma dict_get_of_mem_of_nodup (counts : List (List Nat × Nat)) (p : List Nat) (cnt : Nat)
    (hin : (p, cnt) ∈ counts) (hnd : (counts.map Prod.fst).Nodup) :
    dict_get counts p = cnt := by
  induction counts with
  | nil => cases hin
  | cons e rest ih =>
    obtain ⟨k', c⟩ := e
    rw [dict_get_cons]
    rcases List.mem_cons.mp hin with he | hrest
    · cases he
      rw [if_pos rfl]
    · have hk : k' ≠ p := by
        intro e
        have : p ∈ rest.map Prod.fst := List.mem_map.mpr ⟨(p, cnt), hrest, rfl⟩
        exact (List.nodup_cons.mp (by simpa using hnd)).1 (e ▸ this)
      rw [if_neg hk]
      exact ih hrest (List.nodup_cons.mp (by simpa using hnd)).2

lemma first_index_lt_length (a : List Nat) (l : List (List Nat)) (h : a ∈ l) :
    first_index a l < l.length := by
  induction l with
  | nil => cases h
  | cons b t ih =>
    unfold first_index
    by_cases hb : b = a
    · simp [hb]
    · rw [if_neg hb]
      have : a ∈ t := by
        rcases List.mem_cons.mp h with he | ht
        · exact absurd he.symm hb
        · exact ht
      simpa [Nat.succ_lt_succ_iff] using ih this

lemma first_index_append_of_mem (a : List Nat) (l t : List (List Nat)) (h : a ∈ l) :
    first_index a (l ++ t) = first_index a l := by
  induction l with
  | nil => cases h
  | cons b s ih =>
    unfold first_index
    by_cases hb : b = a
    · simp [hb]
    · rw [List.cons_append]
      show (if b = a then 0 else first_index a (s ++ t) + 1) = _
      rw [if_neg hb, if_neg hb]
      have : a ∈ s := by
        rcases List.mem_cons.mp h with he | hs
        · exact absurd he.symm hb
        · exact hs
      rw [ih this]

lemma first_index_append_singleton (a : List Nat) (l : List (List Nat)) (h : a ∉ l) :
    first_index a (l ++ [a]) = l.length := by
  induction l with
  | nil => simp [first_index]
  | cons b t ih =>
    have hb : b ≠ a := fun e => h (e ▸ List.mem_cons_self b t)
    rw [List.cons_append]
    show (if b = a then 0 else first_index a (t ++ [a]) + 1) = _
    rw [if_neg hb, ih (fun hm => h (List.mem_cons_of_mem b hm))]
    rfl

lemma pick_max_spec (b : List Nat × Nat) (l : List (List Nat × Nat)) :
    ∃ l1 l2, b :: l = l1 ++ pick_max b l :: l2 ∧
      (∀ y ∈ l1, y.2 < (pick_max b l).2) ∧
      ∀ y ∈ b :: l, y.2 ≤ (pick_max b l).2 := by
  induction l generalizing b with
  | nil => exact ⟨[], [], rfl, by simp, by simp [pick_max]⟩
  | cons y ys ih =>
    have hstep : pick_max b (y :: ys) = pick_max (if b.2 < y.2 then y else b) ys := rfl
    by_cases hby : b.2 < y.2
    · rw [hstep, if_pos hby]
      obtain ⟨l1, l2, hsplit, hlt, hmax⟩ := ih y
      refine ⟨b :: l1, l2, ?_, ?_, ?_⟩
      · rw [List.cons_append, ← hsplit]
      · intro z hz
        rcases List.mem_cons.mp hz with rfl | hz1
        · exact lt_of_lt_of_le hby (hmax y (List.mem_cons_self y ys))
        · exact hlt z hz1
      · intro z hz
        rcases List.mem_cons.mp hz with rfl | hz1
        · exact le_of_lt (lt_of_lt_of_le hby (hmax y (List.mem_cons_self y ys)))
        · exact hmax z hz1
    · rw [hstep, if_neg hby]
      obtain ⟨l1, l2, hsplit, hlt, hmax⟩ := ih b
      cases l1 with
      | nil =>
        have hpm : pick_max b ys = b := by
          have := hsplit
          simp only [List.nil_append] at this
          exact (List.cons.injEq .. ▸ this).1.symm
        have hl2 : l2 = ys := by
          have := hsplit
          simp only [List.nil_append] at this
          exact ((List.cons.injEq .. ▸ this).2).symm
        refine ⟨[], y :: ys, by rw [hpm]; rfl, by simp, ?_⟩
        intro z hz
        rcases List.mem_cons.mp hz with rfl | hz1
        · rw [hpm]
        · rcases List.mem_cons.mp hz1 with rfl | hz2
          · rw [hpm]
            exact Nat.le_of_not_lt hby
          · exact hmax z (List.mem_cons_of_mem b hz2)
      | cons a l1' =>
        have ha : a = b := by
          have := hsplit
          rw [List.cons_append] at this
          exact (List.cons.injEq .. ▸ this).1.symm
        have hys : ys = l1' ++ pick_max b ys :: l2 := by
          have := hsplit
          rw [List.cons_append] at this
          exact (List.cons.injEq .. ▸ this).2
        have hblt : b.2 < (pick_max b ys).2 := by
          have := hlt a (by simp)
          rwa [ha] at this
        refine ⟨b :: y :: l1', l2, ?_, ?_, ?_⟩
        · rw [List.cons_append, List.cons_append, ← hys]
        · intro z hz
          rcases List.mem_cons.mp hz with rfl | hz1
          · exact hblt
          · rcases List.mem_cons.mp hz1 with rfl | hz2
            · exact lt_of_le_of_lt (Nat.le_of_not_lt hby) hblt
            · exact hlt z (ha ▸ List.mem_cons_of_mem a hz2)
        · intro z hz
          rcases List.mem_cons.mp hz with rfl | hz1
          · exact hmax z (List.mem_cons_self _ ys)
          · rcases List.mem_cons.mp hz1 with rfl | hz2
            · exact le_of_lt (lt_of_le_of_lt (Nat.le_of_not_lt hby) hblt)
            · exact hmax z (List.mem_cons_of_mem _ hz2)

lemma counts_inv_step (n : Nat) (pre : List (List Nat)) (counts : List (List Nat × Nat))
    (r : List Nat) (h : CountsInv n pre counts) :
    CountsInv n (pre ++ [r]) (dict_incr counts (r.take n)) := by
  obtain ⟨hnd, hget, hmem, hpair⟩ := h
  have hP' : (pre ++ [r]).map (fun x => x.take n) =
      pre.map (fun x => x.take n) ++ [r.take n] := by simp
  have hidx : ∀ p ∈ pre.map (fun x => x.take n),
      first_index p (pre.map (fun x => x.take n) ++ [r.take n]) =
        first_index p (pre.map (fun x => x.take n)) :=
    fun p hp => first_index_append_of_mem p _ _ hp
  refine ⟨?_, ?_, ?_, ?_⟩
  · by_cases hkk : r.take n ∈ counts.map Prod.fst
    · rw [dict_incr_keys, if_pos hkk]
      exact hnd
    · rw [dict_incr_keys, if_neg hkk]
      simp [List.nodup_append, hnd, hkk]
  · intro p
    rw [dict_incr_get, List.countP_append]
    by_cases hpk : p = r.take n
    · rw [if_pos hpk, hget p]
      simp [List.countP_cons, hpk]
    · rw [if_neg hpk, hget p]
      have : ¬(r.take n = p) := fun e => hpk e.symm
      simp [List.countP_cons, this]
  · intro p
    rw [hP']
    by_cases hkk : r.take n ∈ counts.map Prod.fst
    · rw [dict_incr_keys, if_pos hkk]
      constructor
      · intro hp
        exact List.mem_append_left _ ((hmem p).mp hp)
      · intro hp
        rcases List.mem_append.mp hp with h1 | h2
        · exact (hmem p).mpr h1
        · exact (List.mem_singleton.mp h2) ▸ hkk
    · rw [dict_incr_keys, if_neg hkk]
      constructor
      · intro hp
        rcases List.mem_append.mp hp with h1 | h2
        · exact List.mem_append_left _ ((hmem p).mp h1)
        · exact List.mem_append_right _ h2
      · intro hp
        rcases List.mem_append.mp hp with h1 | h2
        · exact List.mem_append_left _ ((hmem p).mpr h1)
        · exact List.mem_append_right _ h2
  · rw [hP']
    by_cases hkk : r.take n ∈ counts.map Prod.fst
    · rw [dict_incr_keys, if_pos hkk]
      refine hpair.imp_of_mem ?_
      intro a b ha hb hab
      rw [hidx a ((hmem a).mp ha), hidx b ((hmem b).mp hb)]
      exact hab
    · rw [dict_incr_keys, if_neg hkk]
      rw [List.pairwise_append]
      refine ⟨hpair.imp_of_mem ?_, by simp, ?_⟩
      · intro a b ha hb hab
        rw [hidx a ((hmem a).mp ha), hidx b ((hmem b).mp hb)]
        exact hab
      · intro a ha b hb
        have hbk : b = r.take n := List.mem_singleton.mp hb
        subst hbk
        have haP : a ∈ pre.map (fun x => x.take n) := (hmem a).mp ha
        rw [hidx a haP,
          first_index_append_singleton _ _ (fun hkP => hkk ((hmem _).mpr hkP))]
        exact first_index_lt_length a _ haP

lemma counts_inv_fold (n : Nat) (l : List (List Nat)) :
    ∀ (pre : List (List Nat)) (counts : List (List Nat × Nat)),
      CountsInv n pre counts →
      CountsInv n (pre ++ l) (l.foldl (fun acc x => dict_incr acc (x.take n)) counts) := by
  induction l with
  | nil =>
    intro pre counts h
    simpa using h
  | cons r t ih =>
    intro pre counts h
    have hstep := counts_inv_step n pre counts r h
    have := ih (pre ++ [r]) (dict_incr counts (r.take n)) hstep
    simpa [List.append_assoc] using this

lemma counts_inv_final (n : Nat) (samples : List (List Nat)) :
    CountsInv n samples (syndrome_counts_of samples n) := by
  have hbase : CountsInv n [] [] := by
    refine ⟨by simp, fun p => by simp [dict_get], fun p => by simp, by simp⟩
  have := counts_inv_fold n samples [] [] hbase
  simpa [syndrome_counts_of] using this

/-- C8: for every non-empty outcome matrix, `analyze_syndrome_patterns`
groups the length-`numAncillas` syndrome prefixes by exact bit-pattern
equality, reports the exact occurrence count of each pattern and the
number of unique patterns, and reports as most frequent a pattern with
the highest count, breaking count ties in favour of the pattern first
encountered in row order. -/
theorem analyze_syndrome_patterns_correct (samples : List (List Nat)) (code_distance : Nat)
    (hne : samples ≠ []) : SyndromeStatsCorrect samples code_distance := by
  obtain ⟨hnd, hget, hmem, hpair⟩ := counts_inv_final (code_distance - 1) samples
  refine ⟨?_, ?_, ?_, rfl, rfl, ?_⟩
  · intro p
    exact hget p
  · exact hnd
  · intro p
    exact (hmem p).trans List.mem_map
  · have hcne : syndrome_counts_of samples (code_distance - 1) ≠ [] := by
      intro h0
      obtain ⟨s0, rest, hs⟩ := List.exists_cons_of_ne_nil hne
      have hmem0 : s0.take (code_distance - 1) ∈
          (syndrome_counts_of samples (code_distance - 1)).map Prod.fst :=
        (hmem _).mpr (by rw [hs]; exact List.mem_map.mpr ⟨s0, by simp, rfl⟩)
      rw [h0] at hmem0
      cases hmem0
    obtain ⟨c, cs, hcc⟩ := List.exists_cons_of_ne_nil hcne
    have hmc : most_common_of (syndrome_counts_of samples (code_distance - 1)) =
        some (pick_max c cs) := by rw [hcc]; rfl
    obtain ⟨l1, l2, hsplit, hbefore, hmax⟩ := pick_max_spec c cs
    have hmem_counts : pick_max c cs ∈ syndrome_counts_of samples (code_distance - 1) := by
      rw [hcc, hsplit]
      exact List.mem_append_right _ (List.mem_cons_self _ _)
    have hlook : dict_get (syndrome_counts_of samples (code_distance - 1)) (pick_max c cs).1 =
        (pick_max c cs).2 :=
      dict_get_of_mem_of_nodup _ _ _ (by simpa using hmem_counts) hnd
    refine ⟨(pick_max c cs).1, (pick_max c cs).2, ?_, ?_, ?_, ?_, ?_⟩
    · show most_common_of (syndrome_counts_of samples (code_distance - 1)) = _
      rw [hmc]
    · exact hlook.symm.trans (hget _)
    · have h1 : (pick_max c cs).1 ∈
          (syndrome_counts_of samples (code_distance - 1)).map Prod.fst :=
        List.mem_map.mpr ⟨pick_max c cs, hmem_counts, rfl⟩
      exact List.mem_map.mp ((hmem _).mp h1)
    · intro r hr
      have hq : r.take (code_distance - 1) ∈
          (syndrome_counts_of samples (code_distance - 1)).map Prod.fst :=
        (hmem _).mpr (List.mem_map.mpr ⟨r, hr, rfl⟩)
      obtain ⟨e, he_in, he_fst⟩ := List.mem_map.mp hq
      have hcount : dict_get (syndrome_counts_of samples (code_distance - 1)) e.1 = e.2 :=
        dict_get_of_mem_of_nodup _ _ _ (by simpa using he_in) hnd
      have he2 : e.2 ≤ (pick_max c cs).2 := by
        apply hmax
        rw [← hcc]
        exact he_in
      calc samples.countP
            (fun q => decide (q.take (code_distance - 1) = r.take (code_distance - 1)))
          = dict_get (syndrome_counts_of samples (code_distance - 1))
              (r.take (code_distance - 1)) := (hget _).symm
        _ = e.2 := by rw [← he_fst]; exact hcount
        _ ≤ (pick_max c cs).2 := he2
    · intro r hr hcnt
      have hq : r.take (code_distance - 1) ∈
          (syndrome_counts_of samples (code_distance - 1)).map Prod.fst :=
        (hmem _).mpr (List.mem_map.mpr ⟨r, hr, rfl⟩)
      obtain ⟨e, he_in, he_fst⟩ := List.mem_map.mp hq
      have hcount : dict_get (syndrome_counts_of samples (code_distance - 1)) e.1 = e.2 :=
        dict_get_of_mem_of_nodup _ _ _ (by simpa using he_in) hnd
      have he2 : e.2 = (pick_max c cs).2 := by
        have h1 : samples.countP
            (fun q => decide (q.take (code_distance - 1) = r.take (code_distance - 1)))
              = e.2 := by
          rw [← hget (r.take (code_distance - 1)), ← he_fst]
          exact hcount.symm ▸ rfl
        rw [← h1, hcnt]
      by_cases hpe : e.1 = (pick_max c cs).1
      · rw [← he_fst, hpe]
      · rw [hcc, hsplit] at he_in
        rcases List.mem_append.mp he_in with h1 | h2
        · exact absurd (hbefore e h1) (by rw [he2]; exact lt_irrefl _)
        · rcases List.mem_cons.mp h2 with he_m | h3
          · exact absurd (congrArg Prod.fst he_m) hpe
          · have hkeys : (syndrome_counts_of samples (code_distance - 1)).map Prod.fst =
                l1.map Prod.fst ++ (pick_max c cs).1 :: l2.map Prod.fst := by
              rw [hcc, hsplit]
              simp
            have hp2 := hpair
            rw [hkeys] at hp2
            have hp3 := (List.pairwise_append.mp hp2).2.1
            have hp4 := (List.pairwise_cons.mp hp3).1
            have hlt : first_index (pick_max c cs).1
                  (samples.map (fun x => x.take (code_distance - 1))) <
                first_index e.1 (samples.map (fun x => x.take (code_distance - 1))) :=
              hp4 e.1 (List.mem_map.mpr ⟨e, h3, rfl⟩)
            rw [← he_fst]
            exact le_of_lt hlt

/-- Witness for C8 on a four-row matrix at distance 3 whose two syndrome
patterns `[0,1]` and `[1,0]` tie with two occurrences each: the
first-seen pattern wins. -/
theorem analyze_syndrome_patterns_correct_witness :
    ([[0, 1, 5], [1, 0, 6], [1, 0, 7], [0, 1, 8]] : List (List Nat)) ≠ [] ∧
    SyndromeStatsCorrect [[0, 1, 5], [1, 0, 6], [1, 0, 7], [0, 1, 8]] 3 :=
  ⟨by decide, analyze_syndrome_patterns_correct _ 3 (by decide)⟩

end QEC
